import Mathlib

/-!
Shallow embedding of `src/BF_extraction_iriscodes.py`: Bloom-filter based
biometric template protection for iris codes, following [IET14]/[IF18].
The script permutes row-groups of the iris-code within four quadrant
regions (`add_unlinkability`) and then encodes each `N_BITS_BF × N_WORDS_BF`
block into a Bloom filter bit-vector of length `BF_SIZE`
(`extract_BFs_from_iriscode`), optionally XOR-diffusing every written
position against a key list (`extract_BFs_from_iriscode_XOR`).

Bit matrices are embedded as total functions `Nat → Nat → Nat` on
(row, column); statements restrict attention to the live index range.
A Bloom filter array is embedded as a function `Nat → Nat` built by a
fold of `Function.update`, one update per array write of the source,
materialised to a `List Nat` row of length `BF_SIZE`.
-/

set_option maxRecDepth 16384

def N_BITS_BF : Nat := 10

def N_WORDS_BF : Nat := 32

def N_BF_X : Nat := 512 / N_WORDS_BF

def N_BF_Y : Nat := 20 / N_BITS_BF

def N_BLOCKS : Nat := N_BF_X * N_BF_Y

def BF_SIZE : Nat := 2 ^ N_BITS_BF

/-- Half of the horizontal block count, `N_BF_X / 2` (= 8). -/
def HALF_X : Nat := N_BF_X / 2

/-- Column width of one quadrant region, `(N_BF_X / 2) * N_WORDS_BF` (= 256). -/
def HALF_COLS : Nat := HALF_X * N_WORDS_BF

/-- Row count of a reshaped quadrant region, `N_BITS_BF * N_BF_X / 2` (= 80);
also the length of each row of the permutation key material. -/
def REGION_ROWS : Nat := N_BITS_BF * N_BF_X / 2

/-- One quadrant of `add_unlinkability`: the region of shape
`N_BITS_BF × HALF_COLS` at offset `(rowOff, colOff)` is reshaped in C order
to `REGION_ROWS` row-groups of width `N_WORDS_BF`, the row-groups are
selected through the permutation `key`, and the result is reshaped back.
Entry `(i, j)` of the transformed region (for `i < N_BITS_BF`,
`j < HALF_COLS`) therefore comes from row-group `key (i * HALF_X + j / N_WORDS_BF)`
of the source region. -/
def regionPerm (features : Nat → Nat → Nat) (key : Nat → Nat)
    (rowOff colOff i j : Nat) : Nat :=
  let r := i * HALF_X + j / N_WORDS_BF
  let c := j % N_WORDS_BF
  features (rowOff + key r / HALF_X) (colOff + (key r % HALF_X * N_WORDS_BF + c))

/-- Embedding of `add_unlinkability(features, keyPERM)`: the four quadrant
regions of the `2·N_BITS_BF × N_BF_X·N_WORDS_BF` matrix are permuted
independently; the source indexes the key material rows as `0`, `2`, `2`, `3`
for the four quadrants (row `1` is never read).  Outside the live shape the
result is `0`, matching the `numpy.zeros` initialisation. -/
def add_unlinkability (features : Nat → Nat → Nat) (keyPERM : Nat → Nat → Nat) :
    Nat → Nat → Nat :=
  fun i j =>
    if i < N_BITS_BF then
      if j < HALF_COLS then regionPerm features (keyPERM 0) 0 0 i j
      else if j < 2 * HALF_COLS then
        regionPerm features (keyPERM 2) 0 HALF_COLS i (j - HALF_COLS)
      else 0
    else if i < 2 * N_BITS_BF then
      if j < HALF_COLS then
        regionPerm features (keyPERM 2) N_BITS_BF 0 (i - N_BITS_BF) j
      else if j < 2 * HALF_COLS then
        regionPerm features (keyPERM 3) N_BITS_BF HALF_COLS (i - N_BITS_BF) (j - HALF_COLS)
      else 0
    else 0

/-- Column `w` of a block read top-to-bottom as an `N_BITS_BF`-bit binary
number, most-significant bit first: the `int('0b' + joined digits, 2)` of the
source, which is this fold whenever the block entries are `0`/`1`. -/
def location (block : Nat → Nat → Nat) (w : Nat) : Nat :=
  (List.range N_BITS_BF).foldl (fun acc b => 2 * acc + block b w) 0

/-- The `N_BITS_BF × N_WORDS_BF` block of `feat` at grid position `(x, y)`:
`feat[y·N_BITS_BF : (y+1)·N_BITS_BF, x·N_WORDS_BF : (x+1)·N_WORDS_BF]`. -/
def blockOf (feat : Nat → Nat → Nat) (x y : Nat) : Nat → Nat → Nat :=
  fun b w => feat (y * N_BITS_BF + b) (x * N_WORDS_BF + w)

/-- The Bloom filter of one block as a function: start from the all-zero
array and perform `bf[location] = 1` for each of the `N_WORDS_BF` columns. -/
def encodeBlockFun (block : Nat → Nat → Nat) : Nat → Nat :=
  (List.range N_WORDS_BF).foldl
    (fun bf w => Function.update bf (location block w) 1) (fun _ => 0)

/-- The Bloom filter of one block materialised as a row of length `BF_SIZE`. -/
def encodeBlock (block : Nat → Nat → Nat) : List Nat :=
  (List.range BF_SIZE).map (encodeBlockFun block)

/-- Embedding of `extract_BFs_from_iriscode(feat)`: one Bloom row per block,
row index `x * N_BF_Y + y` with `x` the outer and `y` the inner loop. -/
def extract_BFs_from_iriscode (feat : Nat → Nat → Nat) : List (List Nat) :=
  (List.range N_BF_X).flatMap
    (fun x => (List.range N_BF_Y).map (fun y => encodeBlock (blockOf feat x y)))

/-- The Bloom filter of one block in fusion mode: for each column,
`bf[location ^ k] = 1` for every key `k` of the XOR key list. -/
def encodeBlockXORFun (block : Nat → Nat → Nat) (keys : List Nat) : Nat → Nat :=
  (List.range N_WORDS_BF).foldl
    (fun bf w =>
      keys.foldl (fun bf2 k => Function.update bf2 (location block w ^^^ k) 1) bf)
    (fun _ => 0)

/-- The fusion-mode Bloom filter of one block as a row of length `BF_SIZE`. -/
def encodeBlockXOR (block : Nat → Nat → Nat) (keys : List Nat) : List Nat :=
  (List.range BF_SIZE).map (encodeBlockXORFun block keys)

/-- Embedding of `extract_BFs_from_iriscode_XOR(feat, keys)`. -/
def extract_BFs_from_iriscode_XOR (feat : Nat → Nat → Nat) (keys : List Nat) :
    List (List Nat) :=
  (List.range N_BF_X).flatMap
    (fun x => (List.range N_BF_Y).map (fun y => encodeBlockXOR (blockOf feat x y) keys))

/-- The matrix has `0`/`1` entries throughout the live `rows × cols` range. -/
abbrev binaryOn (feat : Nat → Nat → Nat) (rows cols : Nat) : Prop :=
  ∀ i < rows, ∀ j < cols, feat i j ≤ 1

/-- Every row of the key material is a permutation of `[0, REGION_ROWS)`:
bounded and injective on that range. -/
abbrev permKeyValid (keyPERM : Nat → Nat → Nat) : Prop :=
  ∀ t < 4, (∀ r < REGION_ROWS, keyPERM t r < REGION_ROWS) ∧
    ∀ r1 < REGION_ROWS, ∀ r2 < REGION_ROWS, keyPERM t r1 = keyPERM t r2 → r1 = r2

/-- `keyINV` is row-by-row the exact inverse of the key material `keyPERM`,
each row of both being a bijection of `[0, REGION_ROWS)`. -/
abbrev inversePerms (keyPERM keyINV : Nat → Nat → Nat) : Prop :=
  ∀ t < 4, ∀ r < REGION_ROWS,
    keyPERM t r < REGION_ROWS ∧ keyINV t r < REGION_ROWS ∧
    keyINV t (keyPERM t r) = r ∧ keyPERM t (keyINV t r) = r

/-- The index range of quadrant `q` (numbered 0..3: top-left, top-right,
bottom-left, bottom-right) inside the live `2·N_BITS_BF × 2·HALF_COLS` shape. -/
abbrev inQuadrant (q i j : Nat) : Prop :=
  match q with
  | 0 => i < N_BITS_BF ∧ j < HALF_COLS
  | 1 => i < N_BITS_BF ∧ HALF_COLS ≤ j ∧ j < 2 * HALF_COLS
  | 2 => N_BITS_BF ≤ i ∧ i < 2 * N_BITS_BF ∧ j < HALF_COLS
  | _ => N_BITS_BF ≤ i ∧ i < 2 * N_BITS_BF ∧ HALF_COLS ≤ j ∧ j < 2 * HALF_COLS

/-- The key material row the source applies to quadrant `q`: rows `0`, `2`,
`2`, `3` for quadrants 0..3 (`keyPERM[0]`, `keyPERM[2]`, `keyPERM[2]`,
`keyPERM[3]` on lines 68-71 of the source). -/
def keyRowOfQuadrant (q : Nat) : Nat :=
  match q with
  | 0 => 0
  | 1 => 2
  | 2 => 2
  | _ => 3

/-- The identity key material (each row the identity permutation). -/
def idKey : Nat → Nat → Nat := fun _ r => r

/-- Key material that differs from `idKey` exactly on row 1. -/
def shiftRow1Key : Nat → Nat → Nat := fun t r => if t = 1 then r + 1 else r

/-- The all-zero input matrix. -/
def zeroFeat : Nat → Nat → Nat := fun _ _ => 0

/-- A block whose column 0 is all ones and whose other columns are zero. -/
def colOnesBlock : Nat → Nat → Nat := fun _ w => if w = 0 then 1 else 0

/-- The matrix loaded from 20 uniform lines of 544 `1` characters
(32 characters longer than the expected 512). -/
def onesFeat544 : Nat → Nat → Nat := fun _ j => if j < 544 then 1 else 0

/-- The matrix loaded from 20 uniform lines of 512 `1` characters. -/
def onesFeat512 : Nat → Nat → Nat := fun _ j => if j < 512 then 1 else 0

/-! Numeric values of the configuration constants. -/

theorem N_BITS_BF_eq : N_BITS_BF = 10 := rfl

theorem N_WORDS_BF_eq : N_WORDS_BF = 32 := rfl

theorem N_BF_X_eq : N_BF_X = 16 := rfl

theorem N_BF_Y_eq : N_BF_Y = 2 := rfl

theorem N_BLOCKS_eq : N_BLOCKS = 32 := rfl

theorem BF_SIZE_eq : BF_SIZE = 1024 := rfl

theorem HALF_X_eq : HALF_X = 8 := rfl

theorem HALF_COLS_eq : HALF_COLS = 256 := rfl

theorem REGION_ROWS_eq : REGION_ROWS = 80 := rfl

/-! Characterisation of a fold of array writes `bf[loc w] = 1`. -/

theorem foldl_update_apply (loc : Nat → Nat) (ws : List Nat) (bf : Nat → Nat) (j : Nat) :
    (ws.foldl (fun b w => Function.update b (loc w) 1) bf) j
      = if ∃ w ∈ ws, loc w = j then 1 else bf j := by
  induction ws generalizing bf with
  | nil => simp
  | cons a l ih =>
    rw [List.foldl_cons, ih]
    by_cases h : ∃ w ∈ l, loc w = j
    · obtain ⟨w, hw, hl⟩ := h
      rw [if_pos ⟨w, hw, hl⟩, if_pos ⟨w, List.mem_cons_of_mem a hw, hl⟩]
    · rw [if_neg h, Function.update_apply]
      by_cases h2 : loc a = j
      · rw [if_pos h2.symm, if_pos ⟨a, List.mem_cons_self a l, h2⟩]
      · rw [if_neg (fun hh => h2 hh.symm), if_neg]
        intro hc
        obtain ⟨w, hw, hl⟩ := hc
        rcases List.mem_cons.mp hw with h3 | h3
        · exact h2 (h3 ▸ hl)
        · exact h ⟨w, h3, hl⟩

theorem foldl_update2_apply (loc : Nat → Nat) (keys : List Nat) (ws : List Nat)
    (bf : Nat → Nat) (j : Nat) :
    (ws.foldl (fun b w => keys.foldl (fun b2 k => Function.update b2 (loc w ^^^ k) 1) b) bf) j
      = if ∃ w ∈ ws, ∃ k ∈ keys, loc w ^^^ k = j then 1 else bf j := by
  induction ws generalizing bf with
  | nil => simp
  | cons a l ih =>
    rw [List.foldl_cons, ih]
    by_cases h : ∃ w ∈ l, ∃ k ∈ keys, loc w ^^^ k = j
    · obtain ⟨w, hw, hk⟩ := h
      rw [if_pos ⟨w, hw, hk⟩, if_pos ⟨w, List.mem_cons_of_mem a hw, hk⟩]
    · rw [if_neg h, foldl_update_apply (fun k => loc a ^^^ k) keys bf j]
      by_cases h2 : ∃ k ∈ keys, loc a ^^^ k = j
      · rw [if_pos h2, if_pos ⟨a, List.mem_cons_self a l, h2⟩]
      · rw [if_neg h2, if_neg]
        intro hc
        obtain ⟨w, hw, hk⟩ := hc
        rcases List.mem_cons.mp hw with h3 | h3
        · exact h2 (h3 ▸ hk)
        · exact h ⟨w, h3, hk⟩

theorem encodeBlockFun_apply (block : Nat → Nat → Nat) (j : Nat) :
    encodeBlockFun block j
      = if ∃ w < N_WORDS_BF, location block w = j then 1 else 0 := by
  rw [encodeBlockFun, foldl_update_apply]
  simp [List.mem_range]

theorem encodeBlockXORFun_apply (block : Nat → Nat → Nat) (keys : List Nat) (j : Nat) :
    encodeBlockXORFun block keys j
      = if ∃ w < N_WORDS_BF, ∃ k ∈ keys, location block w ^^^ k = j then 1 else 0 := by
  rw [encodeBlockXORFun, foldl_update2_apply]
  simp [List.mem_range]

theorem encodeBlockFun_zero_or_one (block : Nat → Nat → Nat) (j : Nat) :
    encodeBlockFun block j = 0 ∨ encodeBlockFun block j = 1 := by
  rw [encodeBlockFun_apply]
  by_cases h : ∃ w < N_WORDS_BF, location block w = j
  · exact Or.inr (if_pos h)
  · exact Or.inl (if_neg h)

theorem encodeBlockXORFun_zero_or_one (block : Nat → Nat → Nat) (keys : List Nat) (j : Nat) :
    encodeBlockXORFun block keys j = 0 ∨ encodeBlockXORFun block keys j = 1 := by
  rw [encodeBlockXORFun_apply]
  by_cases h : ∃ w < N_WORDS_BF, ∃ k ∈ keys, location block w ^^^ k = j
  · exact Or.inr (if_pos h)
  · exact Or.inl (if_neg h)

/-! Shape of the materialised rows and templates. -/

theorem encodeBlock_length (block : Nat → Nat → Nat) :
    (encodeBlock block).length = BF_SIZE := by
  simp [encodeBlock]

theorem encodeBlockXOR_length (block : Nat → Nat → Nat) (keys : List Nat) :
    (encodeBlockXOR block keys).length = BF_SIZE := by
  simp [encodeBlockXOR]

theorem encodeBlock_getD (block : Nat → Nat → Nat) (j : Nat) (hj : j < BF_SIZE) :
    (encodeBlock block).getD j 0 = encodeBlockFun block j := by
  have hlen : j < (encodeBlock block).length := by
    rw [encodeBlock_length]; exact hj
  rw [List.getD_eq_getElem _ _ hlen]
  simp [encodeBlock]

theorem extract_length (feat : Nat → Nat → Nat) :
    (extract_BFs_from_iriscode feat).length = N_BLOCKS := rfl

theorem extract_XOR_length (feat : Nat → Nat → Nat) (keys : List Nat) :
    (extract_BFs_from_iriscode_XOR feat keys).length = N_BLOCKS := rfl

theorem extract_row (feat : Nat → Nat → Nat) (i : Nat) (hi : i < 32) :
    (extract_BFs_from_iriscode feat).getD i []
      = encodeBlock (blockOf feat (i / N_BF_Y) (i % N_BF_Y)) := by
  interval_cases i <;> rfl

theorem extract_XOR_row (feat : Nat → Nat → Nat) (keys : List Nat) (i : Nat) (hi : i < 32) :
    (extract_BFs_from_iriscode_XOR feat keys).getD i []
      = encodeBlockXOR (blockOf feat (i / N_BF_Y) (i % N_BF_Y)) keys := by
  interval_cases i <;> rfl

/-! Range of the computed Bloom locations. -/

theorem foldl_binary_bound (g : Nat → Nat) (l : List Nat) :
    ∀ acc k : Nat, (∀ b ∈ l, g b ≤ 1) → acc < 2 ^ k →
      l.foldl (fun a b => 2 * a + g b) acc < 2 ^ (k + l.length) := by
  induction l with
  | nil =>
    intro acc k _ hacc
    simpa using hacc
  | cons b t ih =>
    intro acc k hg hacc
    rw [List.foldl_cons]
    have hb : g b ≤ 1 := hg b (List.mem_cons_self b t)
    have hpow : (2 : Nat) ^ (k + 1) = 2 * 2 ^ k := by
      rw [pow_succ]; ring
    have h1 : 2 * acc + g b < 2 ^ (k + 1) := by omega
    have h2 := ih (2 * acc + g b) (k + 1)
      (fun x hx => hg x (List.mem_cons_of_mem b hx)) h1
    have he : k + 1 + t.length = k + (b :: t).length := by
      simp only [List.length_cons]
      omega
    rw [← he]
    exact h2

theorem location_lt (block : Nat → Nat → Nat) (w : Nat)
    (hb : ∀ b < N_BITS_BF, block b w ≤ 1) :
    location block w < BF_SIZE := by
  have h := foldl_binary_bound (fun b => block b w) (List.range N_BITS_BF) 0 0
    (fun b hbm => hb b (List.mem_range.mp hbm)) (by norm_num)
  simpa [location, BF_SIZE] using h

/-! The encoders only read the block entries at indices
`b < N_BITS_BF`, `w < N_WORDS_BF`. -/

theorem location_congr (block block' : Nat → Nat → Nat) (w : Nat)
    (h : ∀ b < N_BITS_BF, block b w = block' b w) :
    location block w = location block' w := by
  unfold location
  apply List.foldl_ext
  intro a b hbm
  rw [h b (List.mem_range.mp hbm)]

theorem encodeBlockFun_congr (block block' : Nat → Nat → Nat)
    (h : ∀ b < N_BITS_BF, ∀ w < N_WORDS_BF, block b w = block' b w) :
    encodeBlockFun block = encodeBlockFun block' := by
  funext j
  rw [encodeBlockFun_apply, encodeBlockFun_apply]
  have hc : (∃ w < N_WORDS_BF, location block w = j)
      ↔ (∃ w < N_WORDS_BF, location block' w = j) := by
    constructor
    · rintro ⟨w, hw, hl⟩
      exact ⟨w, hw, by rw [← location_congr block block' w (fun b hbb => h b hbb w hw)]; exact hl⟩
    · rintro ⟨w, hw, hl⟩
      exact ⟨w, hw, by rw [location_congr block block' w (fun b hbb => h b hbb w hw)]; exact hl⟩
  rw [if_congr hc rfl rfl]

theorem encodeBlockXORFun_congr (block block' : Nat → Nat → Nat) (keys : List Nat)
    (h : ∀ b < N_BITS_BF, ∀ w < N_WORDS_BF, block b w = block' b w) :
    encodeBlockXORFun block keys = encodeBlockXORFun block' keys := by
  funext j
  rw [encodeBlockXORFun_apply, encodeBlockXORFun_apply]
  have hc : (∃ w < N_WORDS_BF, ∃ k ∈ keys, location block w ^^^ k = j)
      ↔ (∃ w < N_WORDS_BF, ∃ k ∈ keys, location block' w ^^^ k = j) := by
    constructor
    · rintro ⟨w, hw, k, hk, hl⟩
      exact ⟨w, hw, k, hk,
        by rw [← location_congr block block' w (fun b hbb => h b hbb w hw)]; exact hl⟩
    · rintro ⟨w, hw, k, hk, hl⟩
      exact ⟨w, hw, k, hk,
        by rw [location_congr block block' w (fun b hbb => h b hbb w hw)]; exact hl⟩
  rw [if_congr hc rfl rfl]

theorem blockOf_congr (feat feat' : Nat → Nat → Nat) (x y : Nat)
    (hx : x < N_BF_X) (hy : y < N_BF_Y)
    (h : ∀ i < 20, ∀ j < 512, feat i j = feat' i j) :
    ∀ b < N_BITS_BF, ∀ w < N_WORDS_BF, blockOf feat x y b w = blockOf feat' x y b w := by
  intro b hbb w hw
  unfold blockOf
  rw [N_BF_X_eq] at hx
  rw [N_BF_Y_eq] at hy
  rw [N_BITS_BF_eq] at hbb ⊢
  rw [N_WORDS_BF_eq] at hw ⊢
  have hrow : y * 10 + b < 20 := by omega
  have hcol : x * 32 + w < 512 := by omega
  exact h _ hrow _ hcol

theorem extract_congr (feat feat' : Nat → Nat → Nat)
    (h : ∀ i < 20, ∀ j < 512, feat i j = feat' i j) :
    extract_BFs_from_iriscode feat = extract_BFs_from_iriscode feat' := by
  apply List.ext_getElem
  · rw [extract_length, extract_length]
  · intro i h1 h2
    have hi : i < 32 := by
      rw [extract_length, N_BLOCKS_eq] at h1
      omega
    rw [← List.getD_eq_getElem _ ([] : List Nat) h1, ← List.getD_eq_getElem _ ([] : List Nat) h2]
    rw [extract_row feat i hi, extract_row feat' i hi]
    unfold encodeBlock
    have hx : i / N_BF_Y < N_BF_X := by
      rw [N_BF_Y_eq, N_BF_X_eq]
      omega
    have hy : i % N_BF_Y < N_BF_Y := by
      rw [N_BF_Y_eq]
      omega
    rw [encodeBlockFun_congr _ _ (blockOf_congr feat feat' _ _ hx hy h)]

/-! Branch evaluation of `add_unlinkability` on each quadrant. -/

theorem add_q0 (M K : Nat → Nat → Nat) (i j : Nat)
    (hi : i < N_BITS_BF) (hj : j < HALF_COLS) :
    add_unlinkability M K i j = regionPerm M (K 0) 0 0 i j := by
  unfold add_unlinkability
  rw [if_pos hi, if_pos hj]

theorem add_q1 (M K : Nat → Nat → Nat) (i j : Nat)
    (hi : i < N_BITS_BF) (hj1 : HALF_COLS ≤ j) (hj2 : j < 2 * HALF_COLS) :
    add_unlinkability M K i j = regionPerm M (K 2) 0 HALF_COLS i (j - HALF_COLS) := by
  unfold add_unlinkability
  rw [if_pos hi, if_neg (by omega : ¬ j < HALF_COLS), if_pos hj2]

theorem add_q2 (M K : Nat → Nat → Nat) (i j : Nat)
    (hi1 : N_BITS_BF ≤ i) (hi2 : i < 2 * N_BITS_BF) (hj : j < HALF_COLS) :
    add_unlinkability M K i j = regionPerm M (K 2) N_BITS_BF 0 (i - N_BITS_BF) j := by
  unfold add_unlinkability
  rw [if_neg (by omega : ¬ i < N_BITS_BF), if_pos hi2, if_pos hj]

theorem add_q3 (M K : Nat → Nat → Nat) (i j : Nat)
    (hi1 : N_BITS_BF ≤ i) (hi2 : i < 2 * N_BITS_BF)
    (hj1 : HALF_COLS ≤ j) (hj2 : j < 2 * HALF_COLS) :
    add_unlinkability M K i j
      = regionPerm M (K 3) N_BITS_BF HALF_COLS (i - N_BITS_BF) (j - HALF_COLS) := by
  unfold add_unlinkability
  rw [if_neg (by omega : ¬ i < N_BITS_BF), if_pos hi2,
    if_neg (by omega : ¬ j < HALF_COLS), if_pos hj2]

theorem regionPerm_eval (M : Nat → Nat → Nat) (key : Nat → Nat) (rowOff colOff i j : Nat) :
    regionPerm M key rowOff colOff i j
      = M (rowOff + key (i * HALF_X + j / N_WORDS_BF) / HALF_X)
          (colOff + (key (i * HALF_X + j / N_WORDS_BF) % HALF_X * N_WORDS_BF
            + j % N_WORDS_BF)) := rfl

/-- Core invertibility computation for one quadrant: if `A` agrees on the
quadrant at offset `(rowOff, colOff)` with the `p`-permuted region of `M`,
then permuting `A` there with the inverse `q` of `p` restores `M`. -/
theorem roundtrip_core (M : Nat → Nat → Nat) (p q : Nat → Nat) (rowOff colOff i j : Nat)
    (hi : i < N_BITS_BF) (hj : j < HALF_COLS)
    (hq : ∀ r < REGION_ROWS, q r < REGION_ROWS)
    (hpq : ∀ r < REGION_ROWS, p (q r) = r)
    (A : Nat → Nat → Nat)
    (hA : ∀ a < N_BITS_BF, ∀ b < HALF_COLS,
      A (rowOff + a) (colOff + b) = regionPerm M p rowOff colOff a b) :
    regionPerm A q rowOff colOff i j = M (rowOff + i) (colOff + j) := by
  rw [N_BITS_BF_eq] at hi
  rw [HALF_COLS_eq] at hj
  rw [regionPerm_eval]
  have hrlt : i * HALF_X + j / N_WORDS_BF < REGION_ROWS := by
    rw [HALF_X_eq, N_WORDS_BF_eq, REGION_ROWS_eq]
    omega
  have hslt : q (i * HALF_X + j / N_WORDS_BF) < 80 := by
    have hh := hq _ hrlt
    rw [REGION_ROWS_eq] at hh
    exact hh
  have hfacts : ∀ s, s < 80 →
      s / HALF_X < N_BITS_BF
      ∧ s % HALF_X * N_WORDS_BF + j % N_WORDS_BF < HALF_COLS
      ∧ s / HALF_X * HALF_X + (s % HALF_X * N_WORDS_BF + j % N_WORDS_BF) / N_WORDS_BF = s := by
    intro s hs
    rw [HALF_X_eq, N_WORDS_BF_eq, N_BITS_BF_eq, HALF_COLS_eq]
    omega
  obtain ⟨hs10, hsc, harg⟩ := hfacts _ hslt
  rw [hA _ hs10 _ hsc, regionPerm_eval, harg, hpq _ hrlt]
  have h12 : ∀ s : Nat, (i * HALF_X + j / N_WORDS_BF) / HALF_X = i
      ∧ (i * HALF_X + j / N_WORDS_BF) % HALF_X * N_WORDS_BF
        + (s % HALF_X * N_WORDS_BF + j % N_WORDS_BF) % N_WORDS_BF = j := by
    intro s
    rw [HALF_X_eq, N_WORDS_BF_eq]
    omega
  obtain ⟨h1, h2⟩ := h12 (q (i * HALF_X + j / N_WORDS_BF))
  rw [h1, h2]

theorem encodeBlockXOR_getD (block : Nat → Nat → Nat) (keys : List Nat) (j : Nat)
    (hj : j < BF_SIZE) :
    (encodeBlockXOR block keys).getD j 0 = encodeBlockXORFun block keys j := by
  have hlen : j < (encodeBlockXOR block keys).length := by
    rw [encodeBlockXOR_length]; exact hj
  rw [List.getD_eq_getElem _ _ hlen]
  simp [encodeBlockXOR]

/-! The fusion encoder with key list containing only 0 is the baseline encoder. -/

theorem encodeBlockXORFun_zero_key (block : Nat → Nat → Nat) :
    encodeBlockXORFun block [0] = encodeBlockFun block := by
  funext j
  rw [encodeBlockXORFun_apply, encodeBlockFun_apply]
  have hc : (∃ w < N_WORDS_BF, ∃ k ∈ ([0] : List Nat), location block w ^^^ k = j)
      ↔ (∃ w < N_WORDS_BF, location block w = j) := by
    constructor
    · rintro ⟨w, hw, k, hk, hl⟩
      rw [List.mem_singleton] at hk
      subst hk
      rw [Nat.xor_zero] at hl
      exact ⟨w, hw, hl⟩
    · rintro ⟨w, hw, hl⟩
      exact ⟨w, hw, 0, List.mem_singleton_self 0, by rw [Nat.xor_zero]; exact hl⟩
  rw [if_congr hc rfl rfl]

theorem extract_XOR_zero_key (feat : Nat → Nat → Nat) :
    extract_BFs_from_iriscode_XOR feat [0] = extract_BFs_from_iriscode feat := by
  unfold extract_BFs_from_iriscode_XOR extract_BFs_from_iriscode encodeBlockXOR encodeBlock
  simp only [encodeBlockXORFun_zero_key]

/-! Special blocks and matrices. -/

theorem add_unlinkability_zero (K : Nat → Nat → Nat) :
    add_unlinkability zeroFeat K = zeroFeat := by
  funext i j
  unfold add_unlinkability regionPerm zeroFeat
  simp

theorem location_allones (block : Nat → Nat → Nat)
    (h : ∀ b < N_BITS_BF, block b 0 = 1) : location block 0 = 1023 := by
  have e : List.range N_BITS_BF = [0, 1, 2, 3, 4, 5, 6, 7, 8, 9] := rfl
  unfold location
  rw [e]
  simp only [List.foldl_cons, List.foldl_nil]
  rw [h 0 (by decide), h 1 (by decide), h 2 (by decide), h 3 (by decide), h 4 (by decide),
    h 5 (by decide), h 6 (by decide), h 7 (by decide), h 8 (by decide), h 9 (by decide)]

theorem encodeBlockFun_zero_block (x y j : Nat) :
    encodeBlockFun (blockOf zeroFeat x y) j = if j = 0 then 1 else 0 := by
  rw [encodeBlockFun_apply]
  have hloc : ∀ w, location (blockOf zeroFeat x y) w = 0 := fun w => rfl
  have hc : (∃ w < N_WORDS_BF, location (blockOf zeroFeat x y) w = j) ↔ j = 0 := by
    constructor
    · rintro ⟨w, hw, hl⟩
      rw [hloc w] at hl
      omega
    · intro hj
      subst hj
      exact ⟨0, by rw [N_WORDS_BF_eq]; omega, hloc 0⟩
  rw [if_congr hc rfl rfl]

/-- Pointwise congruence for one permuted quadrant: if the two inputs agree
on the quadrant and the two keys agree (and the key stays in range), the
permuted entries agree. -/
theorem regionPerm_congr_bounds (M M' : Nat → Nat → Nat) (k k' : Nat → Nat)
    (rowOff colOff i j : Nat)
    (hi : i < N_BITS_BF) (hj : j < HALF_COLS)
    (hkb : ∀ r < REGION_ROWS, k r < REGION_ROWS)
    (hkey : ∀ r < REGION_ROWS, k r = k' r)
    (hM : ∀ a < N_BITS_BF, ∀ b < HALF_COLS,
      M (rowOff + a) (colOff + b) = M' (rowOff + a) (colOff + b)) :
    regionPerm M k rowOff colOff i j = regionPerm M' k' rowOff colOff i j := by
  rw [regionPerm_eval, regionPerm_eval]
  have hr : i * HALF_X + j / N_WORDS_BF < REGION_ROWS := by
    rw [N_BITS_BF_eq] at hi
    rw [HALF_COLS_eq] at hj
    rw [HALF_X_eq, N_WORDS_BF_eq, REGION_ROWS_eq]
    omega
  rw [← hkey _ hr]
  have hs80 : k (i * HALF_X + j / N_WORDS_BF) < 80 := by
    have hh := hkb _ hr
    rw [REGION_ROWS_eq] at hh
    exact hh
  have hbounds : ∀ s, s < 80 →
      s / HALF_X < N_BITS_BF
      ∧ s % HALF_X * N_WORDS_BF + j % N_WORDS_BF < HALF_COLS := by
    intro s hs
    rw [HALF_X_eq, N_WORDS_BF_eq, N_BITS_BF_eq, HALF_COLS_eq]
    omega
  obtain ⟨hb1, hb2⟩ := hbounds _ hs80
  exact hM _ hb1 _ hb2

/-- C1: for every binary block of shape `N_BITS_BF × N_WORDS_BF`, the baseline
encoder produces a BloomVector of length `BF_SIZE` whose set of 1-bits is
exactly the set of column locations (each column read top-to-bottom, MSB
first); every entry is 0 or 1, no other bit is set, and consequently the
number of 1-bits is at most `N_WORDS_BF`. -/
theorem C1_baseline_block_charac (block : Nat → Nat → Nat)
    (hb : ∀ b < N_BITS_BF, ∀ w < N_WORDS_BF, block b w ≤ 1) :
    (encodeBlock block).length = BF_SIZE
    ∧ (∀ j < BF_SIZE, ((encodeBlock block).getD j 0 = 1
        ↔ ∃ w < N_WORDS_BF, location block w = j))
    ∧ (∀ j < BF_SIZE, (encodeBlock block).getD j 0 = 0 ∨ (encodeBlock block).getD j 0 = 1)
    ∧ ((Finset.range BF_SIZE).filter (fun j => (encodeBlock block).getD j 0 = 1)).card
        ≤ N_WORDS_BF := by
  refine ⟨encodeBlock_length block, ?_, ?_, ?_⟩
  · intro j hj
    rw [encodeBlock_getD block j hj, encodeBlockFun_apply]
    constructor
    · intro h1
      by_cases hex : ∃ w < N_WORDS_BF, location block w = j
      · exact hex
      · rw [if_neg hex] at h1
        exact absurd h1 (by norm_num)
    · intro hex
      rw [if_pos hex]
  · intro j hj
    rw [encodeBlock_getD block j hj]
    exact encodeBlockFun_zero_or_one block j
  · have hsub : (Finset.range BF_SIZE).filter (fun j => (encodeBlock block).getD j 0 = 1)
        ⊆ (Finset.range N_WORDS_BF).image (fun w => location block w) := by
      intro j hjmem
      rw [Finset.mem_filter, Finset.mem_range] at hjmem
      obtain ⟨hj, h1⟩ := hjmem
      rw [encodeBlock_getD block j hj, encodeBlockFun_apply] at h1
      by_cases hex : ∃ w < N_WORDS_BF, location block w = j
      · obtain ⟨w, hw, hl⟩ := hex
        rw [Finset.mem_image]
        exact ⟨w, Finset.mem_range.mpr hw, hl⟩
      · rw [if_neg hex] at h1
        exact absurd h1 (by norm_num)
    have hcard1 := Finset.card_le_card hsub
    have hcard2 : ((Finset.range N_WORDS_BF).image (fun w => location block w)).card
        ≤ (Finset.range N_WORDS_BF).card := Finset.card_image_le
    rw [Finset.card_range] at hcard2
    omega

theorem C1_baseline_block_charac_witness :
    (∀ b < N_BITS_BF, ∀ w < N_WORDS_BF, zeroFeat b w ≤ 1)
    ∧ ((encodeBlock zeroFeat).length = BF_SIZE
      ∧ (∀ j < BF_SIZE, ((encodeBlock zeroFeat).getD j 0 = 1
          ↔ ∃ w < N_WORDS_BF, location zeroFeat w = j))
      ∧ (∀ j < BF_SIZE, (encodeBlock zeroFeat).getD j 0 = 0
          ∨ (encodeBlock zeroFeat).getD j 0 = 1)
      ∧ ((Finset.range BF_SIZE).filter (fun j => (encodeBlock zeroFeat).getD j 0 = 1)).card
          ≤ N_WORDS_BF) :=
  ⟨by decide, C1_baseline_block_charac zeroFeat (by decide)⟩

/-- C2: for every key list with values in `[0, BF_SIZE)` and every binary
block, the fusion encoder's set of 1-bits is exactly the XOR diffusion of the
column locations by the keys; and with key list `[0]` the fusion pipeline
output equals the baseline pipeline output on any input matrix. -/
theorem C2_xor_block_charac (block : Nat → Nat → Nat) (keys : List Nat)
    (feat : Nat → Nat → Nat)
    (hb : ∀ b < N_BITS_BF, ∀ w < N_WORDS_BF, block b w ≤ 1)
    (hk : ∀ k ∈ keys, k < BF_SIZE) :
    (∀ j < BF_SIZE, ((encodeBlockXOR block keys).getD j 0 = 1
        ↔ ∃ w < N_WORDS_BF, ∃ k ∈ keys, location block w ^^^ k = j))
    ∧ extract_BFs_from_iriscode_XOR feat [0] = extract_BFs_from_iriscode feat := by
  constructor
  · intro j hj
    rw [encodeBlockXOR_getD block keys j hj, encodeBlockXORFun_apply]
    constructor
    · intro h1
      by_cases hex : ∃ w < N_WORDS_BF, ∃ k ∈ keys, location block w ^^^ k = j
      · exact hex
      · rw [if_neg hex] at h1
        exact absurd h1 (by norm_num)
    · intro hex
      rw [if_pos hex]
  · exact extract_XOR_zero_key feat

theorem C2_xor_block_charac_witness :
    (∀ b < N_BITS_BF, ∀ w < N_WORDS_BF, zeroFeat b w ≤ 1)
    ∧ (∀ k ∈ ([5] : List Nat), k < BF_SIZE)
    ∧ ((∀ j < BF_SIZE, ((encodeBlockXOR zeroFeat [5]).getD j 0 = 1
        ↔ ∃ w < N_WORDS_BF, ∃ k ∈ ([5] : List Nat), location zeroFeat w ^^^ k = j))
      ∧ extract_BFs_from_iriscode_XOR zeroFeat [0] = extract_BFs_from_iriscode zeroFeat) :=
  ⟨by decide, by decide, C2_xor_block_charac zeroFeat [5] zeroFeat (by decide) (by decide)⟩

/-- C3: applying `add_unlinkability` with key material `keyPERM` whose four
rows are bijections of `[0, REGION_ROWS)`, then applying it with the exact
inverse permutations, reproduces the original matrix bit-for-bit on the live
`2·N_BITS_BF × N_BF_X·N_WORDS_BF` shape. -/
theorem C3_unlinkability_roundtrip (M keyPERM keyINV : Nat → Nat → Nat)
    (h : inversePerms keyPERM keyINV) :
    ∀ i < 2 * N_BITS_BF, ∀ j < N_BF_X * N_WORDS_BF,
      add_unlinkability (add_unlinkability M keyPERM) keyINV i j = M i j := by
  have hq0 : ∀ r < REGION_ROWS, keyINV 0 r < REGION_ROWS :=
    fun r hr => (h 0 (by norm_num) r hr).2.1
  have hpq0 : ∀ r < REGION_ROWS, keyPERM 0 (keyINV 0 r) = r :=
    fun r hr => (h 0 (by norm_num) r hr).2.2.2
  have hq2 : ∀ r < REGION_ROWS, keyINV 2 r < REGION_ROWS :=
    fun r hr => (h 2 (by norm_num) r hr).2.1
  have hpq2 : ∀ r < REGION_ROWS, keyPERM 2 (keyINV 2 r) = r :=
    fun r hr => (h 2 (by norm_num) r hr).2.2.2
  have hq3 : ∀ r < REGION_ROWS, keyINV 3 r < REGION_ROWS :=
    fun r hr => (h 3 (by norm_num) r hr).2.1
  have hpq3 : ∀ r < REGION_ROWS, keyPERM 3 (keyINV 3 r) = r :=
    fun r hr => (h 3 (by norm_num) r hr).2.2.2
  intro i hi j hj
  have hj2 : j < 2 * HALF_COLS := by
    rw [N_BF_X_eq, N_WORDS_BF_eq] at hj
    rw [HALF_COLS_eq]
    omega
  by_cases hi10 : i < N_BITS_BF
  · by_cases hjh : j < HALF_COLS
    · rw [add_q0 (add_unlinkability M keyPERM) keyINV i j hi10 hjh]
      have happ : ∀ a < N_BITS_BF, ∀ b < HALF_COLS,
          add_unlinkability M keyPERM (0 + a) (0 + b) = regionPerm M (keyPERM 0) 0 0 a b := by
        intro a ha b hb
        rw [Nat.zero_add, Nat.zero_add]
        exact add_q0 M keyPERM a b ha hb
      rw [roundtrip_core M (keyPERM 0) (keyINV 0) 0 0 i j hi10 hjh hq0 hpq0 _ happ]
      rw [Nat.zero_add, Nat.zero_add]
    · have hjge : HALF_COLS ≤ j := by omega
      have hjlt : j - HALF_COLS < HALF_COLS := by omega
      rw [add_q1 (add_unlinkability M keyPERM) keyINV i j hi10 hjge hj2]
      have happ : ∀ a < N_BITS_BF, ∀ b < HALF_COLS,
          add_unlinkability M keyPERM (0 + a) (HALF_COLS + b)
            = regionPerm M (keyPERM 2) 0 HALF_COLS a b := by
        intro a ha b hb
        rw [Nat.zero_add]
        rw [add_q1 M keyPERM a (HALF_COLS + b) ha (by omega) (by omega)]
        have hb2 : HALF_COLS + b - HALF_COLS = b := by omega
        rw [hb2]
      rw [roundtrip_core M (keyPERM 2) (keyINV 2) 0 HALF_COLS i (j - HALF_COLS)
        hi10 hjlt hq2 hpq2 _ happ]
      rw [Nat.zero_add]
      have hcb : HALF_COLS + (j - HALF_COLS) = j := by omega
      rw [hcb]
  · have hige : N_BITS_BF ≤ i := by omega
    have hilt : i - N_BITS_BF < N_BITS_BF := by omega
    by_cases hjh : j < HALF_COLS
    · rw [add_q2 (add_unlinkability M keyPERM) keyINV i j hige hi hjh]
      have happ : ∀ a < N_BITS_BF, ∀ b < HALF_COLS,
          add_unlinkability M keyPERM (N_BITS_BF + a) (0 + b)
            = regionPerm M (keyPERM 2) N_BITS_BF 0 a b := by
        intro a ha b hb
        rw [Nat.zero_add]
        rw [add_q2 M keyPERM (N_BITS_BF + a) b (by omega) (by omega) hb]
        have ha2 : N_BITS_BF + a - N_BITS_BF = a := by omega
        rw [ha2]
      rw [roundtrip_core M (keyPERM 2) (keyINV 2) N_BITS_BF 0 (i - N_BITS_BF) j
        hilt hjh hq2 hpq2 _ happ]
      rw [Nat.zero_add]
      have hra : N_BITS_BF + (i - N_BITS_BF) = i := by omega
      rw [hra]
    · have hjge : HALF_COLS ≤ j := by omega
      have hjlt : j - HALF_COLS < HALF_COLS := by omega
      rw [add_q3 (add_unlinkability M keyPERM) keyINV i j hige hi hjge hj2]
      have happ : ∀ a < N_BITS_BF, ∀ b < HALF_COLS,
          add_unlinkability M keyPERM (N_BITS_BF + a) (HALF_COLS + b)
            = regionPerm M (keyPERM 3) N_BITS_BF HALF_COLS a b := by
        intro a ha b hb
        rw [add_q3 M keyPERM (N_BITS_BF + a) (HALF_COLS + b)
          (by omega) (by omega) (by omega) (by omega)]
        have ha2 : N_BITS_BF + a - N_BITS_BF = a := by omega
        have hb2 : HALF_COLS + b - HALF_COLS = b := by omega
        rw [ha2, hb2]
      rw [roundtrip_core M (keyPERM 3) (keyINV 3) N_BITS_BF HALF_COLS
        (i - N_BITS_BF) (j - HALF_COLS) hilt hjlt hq3 hpq3 _ happ]
      have hra : N_BITS_BF + (i - N_BITS_BF) = i := by omega
      have hcb : HALF_COLS + (j - HALF_COLS) = j := by omega
      rw [hra, hcb]

theorem C3_unlinkability_roundtrip_witness :
    inversePerms idKey idKey
    ∧ ∀ i < 2 * N_BITS_BF, ∀ j < N_BF_X * N_WORDS_BF,
        add_unlinkability (add_unlinkability zeroFeat idKey) idKey i j = zeroFeat i j :=
  ⟨by decide, C3_unlinkability_roundtrip zeroFeat idKey idKey (by decide)⟩

/-- C4: each quadrant of the output of `add_unlinkability` uses the key
material row given by `keyRowOfQuadrant` (rows 0, 2, 2, 3), and the
transformed quadrant depends only on its own input region and that key row:
two inputs agreeing there produce the same output on that quadrant. -/
theorem C4_quadrant_noninterference (q : Nat) (hq4 : q < 4)
    (M M' K K' : Nat → Nat → Nat)
    (hkb : ∀ r < REGION_ROWS, K (keyRowOfQuadrant q) r < REGION_ROWS)
    (hkey : ∀ r < REGION_ROWS, K (keyRowOfQuadrant q) r = K' (keyRowOfQuadrant q) r)
    (hM : ∀ i j, inQuadrant q i j → M i j = M' i j) :
    ∀ i j, inQuadrant q i j → add_unlinkability M K i j = add_unlinkability M' K' i j := by
  interval_cases q
  · intro i j hij
    obtain ⟨hi, hj⟩ := hij
    rw [add_q0 M K i j hi hj, add_q0 M' K' i j hi hj]
    exact regionPerm_congr_bounds M M' (K 0) (K' 0) 0 0 i j hi hj hkb hkey
      (fun a ha b hb => by
        rw [Nat.zero_add, Nat.zero_add]
        exact hM a b ⟨ha, hb⟩)
  · intro i j hij
    obtain ⟨hi, hj1, hj2⟩ := hij
    rw [add_q1 M K i j hi hj1 hj2, add_q1 M' K' i j hi hj1 hj2]
    have hjlt : j - HALF_COLS < HALF_COLS := by omega
    exact regionPerm_congr_bounds M M' (K 2) (K' 2) 0 HALF_COLS i (j - HALF_COLS)
      hi hjlt hkb hkey
      (fun a ha b hb => by
        rw [Nat.zero_add]
        exact hM a (HALF_COLS + b) ⟨ha, by omega, by omega⟩)
  · intro i j hij
    obtain ⟨hi1, hi2, hj⟩ := hij
    rw [add_q2 M K i j hi1 hi2 hj, add_q2 M' K' i j hi1 hi2 hj]
    have hilt : i - N_BITS_BF < N_BITS_BF := by omega
    exact regionPerm_congr_bounds M M' (K 2) (K' 2) N_BITS_BF 0 (i - N_BITS_BF) j
      hilt hj hkb hkey
      (fun a ha b hb => by
        rw [Nat.zero_add]
        exact hM (N_BITS_BF + a) b ⟨by omega, by omega, hb⟩)
  · intro i j hij
    obtain ⟨hi1, hi2, hj1, hj2⟩ := hij
    rw [add_q3 M K i j hi1 hi2 hj1 hj2, add_q3 M' K' i j hi1 hi2 hj1 hj2]
    have hilt : i - N_BITS_BF < N_BITS_BF := by omega
    have hjlt : j - HALF_COLS < HALF_COLS := by omega
    exact regionPerm_congr_bounds M M' (K 3) (K' 3) N_BITS_BF HALF_COLS
      (i - N_BITS_BF) (j - HALF_COLS) hilt hjlt hkb hkey
      (fun a ha b hb =>
        hM (N_BITS_BF + a) (HALF_COLS + b) ⟨by omega, by omega, by omega, by omega⟩)

theorem C4_quadrant_noninterference_witness :
    (0 : Nat) < 4
    ∧ (∀ r < REGION_ROWS, idKey (keyRowOfQuadrant 0) r < REGION_ROWS)
    ∧ (∀ r < REGION_ROWS, idKey (keyRowOfQuadrant 0) r = idKey (keyRowOfQuadrant 0) r)
    ∧ (∀ i j, inQuadrant 0 i j → zeroFeat i j = zeroFeat i j)
    ∧ ∀ i j, inQuadrant 0 i j
        → add_unlinkability zeroFeat idKey i j = add_unlinkability zeroFeat idKey i j :=
  ⟨by decide, by decide, fun _ _ => rfl, fun _ _ _ => rfl,
    C4_quadrant_noninterference 0 (by decide) zeroFeat zeroFeat idKey idKey
      (by decide) (fun _ _ => rfl) (fun _ _ _ => rfl)⟩

/-- C5: for every binary input matrix of the reference 20×512 shape (and XOR
keys in range, as drawn by the script), the template produced by either
encoder has exactly 32 rows, each of length 1024, with every entry 0 or 1. -/
theorem C5_template_shape (feat : Nat → Nat → Nat) (keys : List Nat)
    (hb : binaryOn feat 20 512) (hk : ∀ k ∈ keys, k < BF_SIZE) :
    ((extract_BFs_from_iriscode feat).length = 32
      ∧ ∀ row ∈ extract_BFs_from_iriscode feat,
          row.length = 1024 ∧ ∀ a ∈ row, a = 0 ∨ a = 1)
    ∧ ((extract_BFs_from_iriscode_XOR feat keys).length = 32
      ∧ ∀ row ∈ extract_BFs_from_iriscode_XOR feat keys,
          row.length = 1024 ∧ ∀ a ∈ row, a = 0 ∨ a = 1) := by
  refine ⟨⟨?_, ?_⟩, ?_, ?_⟩
  · rw [extract_length, N_BLOCKS_eq]
  · intro row hrow
    unfold extract_BFs_from_iriscode at hrow
    rw [List.mem_flatMap] at hrow
    obtain ⟨x, hx, hrow⟩ := hrow
    rw [List.mem_map] at hrow
    obtain ⟨y, hy, hrow⟩ := hrow
    subst hrow
    refine ⟨?_, ?_⟩
    · rw [encodeBlock_length, BF_SIZE_eq]
    · intro a ha
      unfold encodeBlock at ha
      rw [List.mem_map] at ha
      obtain ⟨jj, hjj, ha⟩ := ha
      rw [← ha]
      exact encodeBlockFun_zero_or_one _ jj
  · rw [extract_XOR_length, N_BLOCKS_eq]
  · intro row hrow
    unfold extract_BFs_from_iriscode_XOR at hrow
    rw [List.mem_flatMap] at hrow
    obtain ⟨x, hx, hrow⟩ := hrow
    rw [List.mem_map] at hrow
    obtain ⟨y, hy, hrow⟩ := hrow
    subst hrow
    refine ⟨?_, ?_⟩
    · rw [encodeBlockXOR_length, BF_SIZE_eq]
    · intro a ha
      unfold encodeBlockXOR at ha
      rw [List.mem_map] at ha
      obtain ⟨jj, hjj, ha⟩ := ha
      rw [← ha]
      exact encodeBlockXORFun_zero_or_one _ keys jj

theorem C5_template_shape_witness :
    binaryOn zeroFeat 20 512
    ∧ (∀ k ∈ ([0] : List Nat), k < BF_SIZE)
    ∧ (((extract_BFs_from_iriscode zeroFeat).length = 32
      ∧ ∀ row ∈ extract_BFs_from_iriscode zeroFeat,
          row.length = 1024 ∧ ∀ a ∈ row, a = 0 ∨ a = 1)
    ∧ ((extract_BFs_from_iriscode_XOR zeroFeat [0]).length = 32
      ∧ ∀ row ∈ extract_BFs_from_iriscode_XOR zeroFeat [0],
          row.length = 1024 ∧ ∀ a ∈ row, a = 0 ∨ a = 1)) :=
  ⟨by decide, by decide, C5_template_shape zeroFeat [0] (by decide) (by decide)⟩

/-- C6: for the all-zero input matrix, with any valid permutation key
material, the baseline pipeline produces a 32×1024 template in which every
row has a 1 exactly at index 0. -/
theorem C6_zero_matrix_template (K : Nat → Nat → Nat) (hK : permKeyValid K) :
    (extract_BFs_from_iriscode (add_unlinkability zeroFeat K)).length = 32
    ∧ (∀ row ∈ extract_BFs_from_iriscode (add_unlinkability zeroFeat K), row.length = 1024)
    ∧ ∀ i < 32, ∀ j < 1024,
        ((extract_BFs_from_iriscode (add_unlinkability zeroFeat K)).getD i []).getD j 0
          = if j = 0 then 1 else 0 := by
  rw [add_unlinkability_zero K]
  refine ⟨?_, ?_, ?_⟩
  · rw [extract_length, N_BLOCKS_eq]
  · intro row hrow
    unfold extract_BFs_from_iriscode at hrow
    rw [List.mem_flatMap] at hrow
    obtain ⟨x, hx, hrow⟩ := hrow
    rw [List.mem_map] at hrow
    obtain ⟨y, hy, hrow⟩ := hrow
    subst hrow
    rw [encodeBlock_length, BF_SIZE_eq]
  · intro i hi j hj
    rw [extract_row zeroFeat i hi]
    have hj2 : j < BF_SIZE := by
      rw [BF_SIZE_eq]
      exact hj
    rw [encodeBlock_getD _ j hj2]
    exact encodeBlockFun_zero_block _ _ j

theorem C6_zero_matrix_template_witness :
    permKeyValid idKey
    ∧ ((extract_BFs_from_iriscode (add_unlinkability zeroFeat idKey)).length = 32
      ∧ (∀ row ∈ extract_BFs_from_iriscode (add_unlinkability zeroFeat idKey),
          row.length = 1024)
      ∧ ∀ i < 32, ∀ j < 1024,
          ((extract_BFs_from_iriscode (add_unlinkability zeroFeat idKey)).getD i []).getD j 0
            = if j = 0 then 1 else 0) :=
  ⟨by decide, C6_zero_matrix_template idKey (by decide)⟩

/-- C7: a block whose column 0 is the all-ones bit string has location 1023
for that column, so the baseline encoder sets bit 1023; the fusion encoder
with key list `[5]` sets bit 1018 = 1023 XOR 5 instead, and sets bit 1023
only if some other column produces it. -/
theorem C7_allones_column (block : Nat → Nat → Nat)
    (hcol : ∀ b < N_BITS_BF, block b 0 = 1) :
    encodeBlockFun block 1023 = 1
    ∧ encodeBlockXORFun block [5] 1018 = 1
    ∧ (encodeBlockXORFun block [5] 1023 = 1
        ↔ ∃ w, w < N_WORDS_BF ∧ w ≠ 0 ∧ location block w ^^^ 5 = 1023) := by
  have hloc : location block 0 = 1023 := location_allones block hcol
  refine ⟨?_, ?_, ?_⟩
  · rw [encodeBlockFun_apply]
    rw [if_pos ⟨0, by rw [N_WORDS_BF_eq]; omega, hloc⟩]
  · rw [encodeBlockXORFun_apply]
    refine if_pos ⟨0, by rw [N_WORDS_BF_eq]; omega, 5, List.mem_singleton_self 5, ?_⟩
    rw [hloc]
    decide
  · rw [encodeBlockXORFun_apply]
    constructor
    · intro h1
      by_cases hex : ∃ w < N_WORDS_BF, ∃ k ∈ ([5] : List Nat), location block w ^^^ k = 1023
      · obtain ⟨w, hw, k, hk, hl⟩ := hex
        rw [List.mem_singleton] at hk
        subst hk
        refine ⟨w, hw, ?_, hl⟩
        intro hw0
        subst hw0
        rw [hloc] at hl
        exact absurd hl (by decide)
      · rw [if_neg hex] at h1
        exact absurd h1 (by norm_num)
    · rintro ⟨w, hw, hw0, hl⟩
      rw [if_pos ⟨w, hw, 5, List.mem_singleton_self 5, hl⟩]

theorem C7_allones_column_witness :
    (∀ b < N_BITS_BF, colOnesBlock b 0 = 1)
    ∧ (encodeBlockFun colOnesBlock 1023 = 1
      ∧ encodeBlockXORFun colOnesBlock [5] 1018 = 1
      ∧ (encodeBlockXORFun colOnesBlock [5] 1023 = 1
          ↔ ∃ w, w < N_WORDS_BF ∧ w ≠ 0 ∧ location colOnesBlock w ^^^ 5 = 1023)) :=
  ⟨by decide, C7_allones_column colOnesBlock (by decide)⟩

/-- C8 evidence: the loader performs no format validation, and the pipeline
reads only the first 512 columns and first 20 rows of the loaded matrix: two
inputs agreeing there yield identical templates.  In particular a sample
whose 20 lines are uniformly longer than 512 characters is processed without
any failure — its extra columns are silently dropped and a normal template
is produced, contradicting the fail-fast requirement. -/
theorem C8_extra_columns_ignored (M M' K : Nat → Nat → Nat)
    (hK : ∀ t < 4, ∀ r < REGION_ROWS, K t r < REGION_ROWS)
    (h : ∀ i < 20, ∀ j < 512, M i j = M' i j) :
    extract_BFs_from_iriscode (add_unlinkability M K)
      = extract_BFs_from_iriscode (add_unlinkability M' K) := by
  apply extract_congr
  intro i hi j hj
  by_cases hi10 : i < N_BITS_BF
  · by_cases hjh : j < HALF_COLS
    · rw [add_q0 M K i j hi10 hjh, add_q0 M' K i j hi10 hjh]
      exact regionPerm_congr_bounds M M' (K 0) (K 0) 0 0 i j hi10 hjh
        (hK 0 (by norm_num)) (fun _ _ => rfl)
        (fun a ha b hb => by
          rw [Nat.zero_add, Nat.zero_add]
          apply h
          · rw [N_BITS_BF_eq] at ha
            omega
          · rw [HALF_COLS_eq] at hb
            omega)
    · have hj2 : j < 2 * HALF_COLS := by
        rw [HALF_COLS_eq]
        omega
      have hjge : HALF_COLS ≤ j := by omega
      have hjlt : j - HALF_COLS < HALF_COLS := by omega
      rw [add_q1 M K i j hi10 hjge hj2, add_q1 M' K i j hi10 hjge hj2]
      exact regionPerm_congr_bounds M M' (K 2) (K 2) 0 HALF_COLS i (j - HALF_COLS)
        hi10 hjlt (hK 2 (by norm_num)) (fun _ _ => rfl)
        (fun a ha b hb => by
          rw [Nat.zero_add]
          apply h
          · rw [N_BITS_BF_eq] at ha
            omega
          · rw [HALF_COLS_eq] at hb ⊢
            omega)
  · have hige : N_BITS_BF ≤ i := by omega
    have hi2 : i < 2 * N_BITS_BF := by
      rw [N_BITS_BF_eq]
      omega
    by_cases hjh : j < HALF_COLS
    · rw [add_q2 M K i j hige hi2 hjh, add_q2 M' K i j hige hi2 hjh]
      have hilt : i - N_BITS_BF < N_BITS_BF := by omega
      exact regionPerm_congr_bounds M M' (K 2) (K 2) N_BITS_BF 0 (i - N_BITS_BF) j
        hilt hjh (hK 2 (by norm_num)) (fun _ _ => rfl)
        (fun a ha b hb => by
          rw [Nat.zero_add]
          apply h
          · rw [N_BITS_BF_eq] at ha ⊢
            omega
          · rw [HALF_COLS_eq] at hb
            omega)
    · have hj2 : j < 2 * HALF_COLS := by
        rw [HALF_COLS_eq]
        omega
      have hjge : HALF_COLS ≤ j := by omega
      have hjlt : j - HALF_COLS < HALF_COLS := by omega
      have hilt : i - N_BITS_BF < N_BITS_BF := by omega
      rw [add_q3 M K i j hige hi2 hjge hj2, add_q3 M' K i j hige hi2 hjge hj2]
      exact regionPerm_congr_bounds M M' (K 3) (K 3) N_BITS_BF HALF_COLS
        (i - N_BITS_BF) (j - HALF_COLS) hilt hjlt (hK 3 (by norm_num)) (fun _ _ => rfl)
        (fun a ha b hb => by
          apply h
          · rw [N_BITS_BF_eq] at ha ⊢
            omega
          · rw [HALF_COLS_eq] at hb ⊢
            omega)

theorem C8_extra_columns_ignored_witness :
    (∀ t < 4, ∀ r < REGION_ROWS, idKey t r < REGION_ROWS)
    ∧ (∀ i < 20, ∀ j < 512, onesFeat544 i j = onesFeat512 i j)
    ∧ extract_BFs_from_iriscode (add_unlinkability onesFeat544 idKey)
        = extract_BFs_from_iriscode (add_unlinkability onesFeat512 idKey) :=
  ⟨by decide, by decide,
    C8_extra_columns_ignored onesFeat544 onesFeat512 idKey (by decide) (by decide)⟩

/-- C9: the output of `add_unlinkability` is completely independent of row 1
of the key material — key materials agreeing on rows 0, 2 and 3 give
identical outputs — and row 2 is the one applied to both the top-right and
the bottom-left quadrant. -/
theorem C9_key_row1_unused (M K K' : Nat → Nat → Nat)
    (h0 : ∀ r, K 0 r = K' 0 r) (h2 : ∀ r, K 2 r = K' 2 r) (h3 : ∀ r, K 3 r = K' 3 r) :
    (∀ i j, add_unlinkability M K i j = add_unlinkability M K' i j)
    ∧ (∀ i j, inQuadrant 1 i j
        → add_unlinkability M K i j = regionPerm M (K 2) 0 HALF_COLS i (j - HALF_COLS))
    ∧ ∀ i j, inQuadrant 2 i j
        → add_unlinkability M K i j = regionPerm M (K 2) N_BITS_BF 0 (i - N_BITS_BF) j := by
  refine ⟨?_, ?_, ?_⟩
  · intro i j
    unfold add_unlinkability regionPerm
    simp only [h0, h2, h3]
  · intro i j hij
    obtain ⟨hi, hj1, hj2⟩ := hij
    exact add_q1 M K i j hi hj1 hj2
  · intro i j hij
    obtain ⟨hi1, hi2, hj⟩ := hij
    exact add_q2 M K i j hi1 hi2 hj

theorem C9_key_row1_unused_witness :
    (∀ r, idKey 0 r = shiftRow1Key 0 r)
    ∧ (∀ r, idKey 2 r = shiftRow1Key 2 r)
    ∧ (∀ r, idKey 3 r = shiftRow1Key 3 r)
    ∧ idKey 1 0 ≠ shiftRow1Key 1 0
    ∧ ((∀ i j, add_unlinkability zeroFeat idKey i j
          = add_unlinkability zeroFeat shiftRow1Key i j)
      ∧ (∀ i j, inQuadrant 1 i j
          → add_unlinkability zeroFeat idKey i j
            = regionPerm zeroFeat (idKey 2) 0 HALF_COLS i (j - HALF_COLS))
      ∧ ∀ i j, inQuadrant 2 i j
          → add_unlinkability zeroFeat idKey i j
            = regionPerm zeroFeat (idKey 2) N_BITS_BF 0 (i - N_BITS_BF) j) :=
  ⟨fun _ => rfl, fun _ => rfl, fun _ => rfl, by decide,
    C9_key_row1_unused zeroFeat idKey shiftRow1Key (fun _ => rfl) (fun _ => rfl)
      (fun _ => rfl)⟩

/-- C10: when every XOR key lies in `[0, BF_SIZE)` and the input matrix is
binary on its 20×512 live range, every index written by the fusion encoder,
`location XOR k`, lies in `[0, BF_SIZE)`, so all BloomVector writes are in
bounds. -/
theorem C10_xor_writes_in_bounds (feat : Nat → Nat → Nat) (keys : List Nat)
    (hb : binaryOn feat 20 512) (hk : ∀ k ∈ keys, k < BF_SIZE) :
    ∀ x < N_BF_X, ∀ y < N_BF_Y, ∀ w < N_WORDS_BF, ∀ k ∈ keys,
      location (blockOf feat x y) w ^^^ k < BF_SIZE := by
  intro x hx y hy w hw k hkm
  have hbw : ∀ b < N_BITS_BF, blockOf feat x y b w ≤ 1 := by
    intro b hbb
    unfold blockOf
    rw [N_BF_X_eq] at hx
    rw [N_BF_Y_eq] at hy
    rw [N_BITS_BF_eq] at hbb ⊢
    rw [N_WORDS_BF_eq] at hw ⊢
    exact hb _ (by omega) _ (by omega)
  have hloc : location (blockOf feat x y) w < BF_SIZE := location_lt _ w hbw
  have hkb : k < BF_SIZE := hk k hkm
  have hbf : BF_SIZE = 2 ^ 10 := by
    rw [BF_SIZE_eq]
    norm_num
  rw [hbf] at hloc hkb ⊢
  exact Nat.bitwise_lt hloc hkb

theorem C10_xor_writes_in_bounds_witness :
    binaryOn zeroFeat 20 512
    ∧ (∀ k ∈ ([5] : List Nat), k < BF_SIZE)
    ∧ ∀ x < N_BF_X, ∀ y < N_BF_Y, ∀ w < N_WORDS_BF, ∀ k ∈ ([5] : List Nat),
        location (blockOf zeroFeat x y) w ^^^ k < BF_SIZE :=
  ⟨by decide, by decide, C10_xor_writes_in_bounds zeroFeat [5] (by decide) (by decide)⟩
